import Mathlib

/-!
Formal model of the streaming conversational pipeline of the meet-agent
repository (`src/index.ts`): the WebSocket audio message handler, the
`processAudio` reply cycle, the sentence-segmenting token-stream loop,
and the `pcm16ToWav` container writer.

Strings are modelled as `List Char`, byte buffers as `List Nat`.
-/

/-- The sentence-terminal characters of the regex `[。！？\n]`
(`src/index.ts` line 194). -/
def isTerm (c : Char) : Bool := c = '。' || c = '！' || c = '？' || c = '\n'

/-- Whitespace removed by JavaScript `String.prototype.trim`: the
ECMAScript WhiteSpace characters — TAB, VT, FF, SP, NBSP, ZWNBSP
(U+FEFF) and every Space_Separator code point (U+1680, U+2000–U+200A,
U+202F, U+205F and the ideographic space U+3000) — together with the
LineTerminator characters LF, CR, LS (U+2028) and PS (U+2029). -/
def isWS (c : Char) : Bool :=
  c = ' ' || c = '\t' || c = '\n' || c = '\r' ||
  c = '\u000B' || c = '\u000C' || c = '\u00A0' || c = '\uFEFF' ||
  c = '\u1680' || ('\u2000' ≤ c && c ≤ '\u200A') ||
  c = '\u2028' || c = '\u2029' || c = '\u202F' || c = '\u205F' || c = '\u3000'

/-- JavaScript `s.trim()`. -/
def trimStr (l : List Char) : List Char :=
  ((l.dropWhile isWS).reverse.dropWhile isWS).reverse

/-- Number of sentence-terminal marks in a string. -/
def countTerm (l : List Char) : Nat := l.countP isTerm

/-- Models `sentenceBuffer.match(/^(.*?[。！？\n])(.*)/s)` (line 194): the
non-greedy first group ends at the first terminal mark scanning left to
right; the two capture groups are returned. -/
def splitFirst : List Char → Option (List Char × List Char)
  | [] => none
  | c :: rest =>
    if isTerm c then some ([c], rest)
    else
      match splitFirst rest with
      | some (p, q) => some (c :: p, q)
      | none => none

theorem splitFirst_spec : ∀ {l p q : List Char}, splitFirst l = some (p, q) →
    l = p ++ q ∧ ∃ p₀ t, p = p₀ ++ [t] ∧ isTerm t = true ∧ countTerm p₀ = 0 := by
  intro l
  induction l with
  | nil => intro p q h; simp [splitFirst] at h
  | cons c rest ih =>
    intro p q h
    by_cases hc : isTerm c
    · simp [splitFirst, hc] at h
      obtain ⟨hp, hq⟩ := h
      subst hp; subst hq
      exact ⟨rfl, [], c, rfl, hc, rfl⟩
    · simp only [splitFirst, hc, Bool.false_eq_true, if_false] at h
      cases hsp : splitFirst rest with
      | none => rw [hsp] at h; simp at h
      | some pq =>
        obtain ⟨p', q'⟩ := pq
        rw [hsp] at h
        simp at h
        obtain ⟨hp, hq⟩ := h
        subst hp; subst hq
        obtain ⟨hrest, p₀, t, hp', ht, hcnt⟩ := ih hsp
        refine ⟨by simp [hrest], c :: p₀, t, by simp [hp'], ht, ?_⟩
        simp [countTerm, List.countP_cons, hc] at hcnt ⊢
        exact hcnt

theorem splitFirst_none_iff : ∀ {l : List Char}, splitFirst l = none ↔ countTerm l = 0 := by
  intro l
  induction l with
  | nil => simp [splitFirst, countTerm]
  | cons c rest ih =>
    by_cases hc : isTerm c
    · simp [splitFirst, hc, countTerm, List.countP_cons]
    · simp only [splitFirst, hc, Bool.false_eq_true, if_false]
      have hct : countTerm (c :: rest) = countTerm rest := by
        simp [countTerm, List.countP_cons, hc]
      rw [hct, ← ih]
      cases hsp : splitFirst rest with
      | none => simp
      | some pq => obtain ⟨p, q⟩ := pq; simp

theorem splitFirst_append : ∀ {l p q : List Char}, splitFirst l = some (p, q) →
    ∀ m, splitFirst (l ++ m) = some (p, q ++ m) := by
  intro l
  induction l with
  | nil => intro p q h; simp [splitFirst] at h
  | cons c rest ih =>
    intro p q h m
    by_cases hc : isTerm c
    · simp [splitFirst, hc] at h ⊢
      obtain ⟨hp, hq⟩ := h
      subst hp; subst hq
      exact ⟨rfl, rfl⟩
    · simp only [splitFirst, hc, Bool.false_eq_true, if_false] at h ⊢
      cases hsp : splitFirst rest with
      | none => rw [hsp] at h; simp at h
      | some pq =>
        obtain ⟨p', q'⟩ := pq
        rw [hsp] at h
        simp at h
        obtain ⟨hp, hq⟩ := h
        subst hp; subst hq
        simp only [List.append_eq]
        rw [ih hsp m]

theorem splitFirst_length : ∀ {l p q : List Char}, splitFirst l = some (p, q) →
    q.length < l.length := by
  intro l p q h
  obtain ⟨hl, p₀, t, hp, _, _⟩ := splitFirst_spec h
  subst hl; subst hp
  simp
  omega

/-- The full boundary decomposition of a string: repeatedly cut at the
first terminal mark; a non-empty remainder with no mark is one final
segment. -/
def segmentsAll (l : List Char) : List (List Char) :=
  match h : splitFirst l with
  | some (p, q) => p :: segmentsAll q
  | none => if l = [] then [] else [l]
termination_by l.length
decreasing_by exact splitFirst_length h

/-- The remainder of a string after its last terminal mark (the whole
string when it has none). -/
def restAfter (l : List Char) : List Char :=
  (l.reverse.takeWhile (fun c => !isTerm c)).reverse

theorem segmentsAll_some {l p q : List Char} (h : splitFirst l = some (p, q)) :
    segmentsAll l = p :: segmentsAll q := by
  rw [segmentsAll.eq_def]
  split
  · rename_i p' q' h'
    rw [h] at h'
    cases h'
    rfl
  · rename_i h'
    rw [h] at h'
    cases h'

theorem segmentsAll_none {l : List Char} (h : splitFirst l = none) :
    segmentsAll l = if l = [] then [] else [l] := by
  rw [segmentsAll.eq_def]
  split
  · rename_i p' q' h'
    rw [h] at h'
    cases h'
  · rfl

theorem segmentsAll_flatten_bounded :
    ∀ (n : Nat) (l : List Char), l.length ≤ n → (segmentsAll l).flatten = l := by
  intro n
  induction n with
  | zero =>
    intro l hl
    have hl0 : l = [] := List.eq_nil_of_length_eq_zero (Nat.le_zero.mp hl)
    subst hl0
    rw [segmentsAll_none (by simp [splitFirst])]
    simp
  | succ n ih =>
    intro l hl
    cases hsp : splitFirst l with
    | none =>
      rw [segmentsAll_none hsp]
      by_cases h0 : l = [] <;> simp [h0]
    | some pq =>
      obtain ⟨p, q⟩ := pq
      rw [segmentsAll_some hsp]
      obtain ⟨hl', _⟩ := splitFirst_spec hsp
      have hlt := splitFirst_length hsp
      rw [List.flatten_cons, ih q (by omega), hl']

theorem segmentsAll_flatten (l : List Char) : (segmentsAll l).flatten = l :=
  segmentsAll_flatten_bounded l.length l (Nat.le_refl _)

theorem restAfter_of_no_term {l : List Char} (h : countTerm l = 0) : restAfter l = l := by
  unfold restAfter
  have hall : ∀ c ∈ l.reverse, (fun c => !isTerm c) c = true := by
    intro c hc
    simp only [Bool.not_eq_true']
    have hc' : c ∈ l := List.mem_reverse.mp hc
    by_contra hct
    have : 0 < countTerm l := by
      unfold countTerm
      refine List.countP_pos_iff.mpr ⟨c, hc', ?_⟩
      simpa using hct
    omega
  rw [List.takeWhile_eq_self_iff.mpr hall, List.reverse_reverse]

theorem takeWhile_append_of_all {p : Char → Bool} :
    ∀ {l₁ : List Char}, (∀ c ∈ l₁, p c = true) →
    ∀ (l₂ : List Char), (l₁ ++ l₂).takeWhile p = l₁ ++ l₂.takeWhile p := by
  intro l₁
  induction l₁ with
  | nil => intro _ l₂; simp
  | cons a l ih =>
    intro h l₂
    have ha : p a = true := h a (by simp)
    simp [List.takeWhile_cons, ha, ih (fun c hc => h c (by simp [hc])) l₂]

theorem takeWhile_append_of_exists {p : Char → Bool} :
    ∀ {l₁ : List Char}, (∃ c ∈ l₁, p c = false) →
    ∀ (l₂ : List Char), (l₁ ++ l₂).takeWhile p = l₁.takeWhile p := by
  intro l₁
  induction l₁ with
  | nil => intro h; simp at h
  | cons a l ih =>
    intro h l₂
    obtain ⟨c, hc, hpc⟩ := h
    by_cases ha : p a = true
    · have hcl : c ∈ l := by
        rcases List.mem_cons.mp hc with h1 | h1
        · subst h1; rw [ha] at hpc; cases hpc
        · exact h1
      simp [List.takeWhile_cons, ha, ih ⟨c, hcl, hpc⟩ l₂]
    · have ha' : p a = false := by simpa using ha
      simp [List.takeWhile_cons, ha']

theorem restAfter_append {p q : List Char} (hp : ∃ p₀ t, p = p₀ ++ [t] ∧ isTerm t = true) :
    restAfter (p ++ q) = restAfter q := by
  obtain ⟨p₀, t, hpe, ht⟩ := hp
  unfold restAfter
  subst hpe
  by_cases hq : countTerm q = 0
  · have hall : ∀ c ∈ q.reverse, (fun c => !isTerm c) c = true := by
      intro c hc
      simp only [Bool.not_eq_true']
      have hc' : c ∈ q := List.mem_reverse.mp hc
      by_contra hct
      have : 0 < countTerm q := by
        unfold countTerm
        refine List.countP_pos_iff.mpr ⟨c, hc', ?_⟩
        simpa using hct
      omega
    rw [List.reverse_append, takeWhile_append_of_all hall,
        List.reverse_append]
    simp [List.takeWhile_cons, ht, List.takeWhile_eq_self_iff.mpr hall]
  · have hex : ∃ c ∈ q.reverse, (fun c => !isTerm c) c = false := by
      have : 0 < countTerm q := Nat.pos_of_ne_zero hq
      obtain ⟨c, hc, hct⟩ := List.countP_pos_iff.mp this
      exact ⟨c, List.mem_reverse.mpr hc, by simpa using hct⟩
    rw [List.reverse_append, takeWhile_append_of_exists hex]

theorem countTerm_append (l m : List Char) :
    countTerm (l ++ m) = countTerm l + countTerm m := by
  simp [countTerm, List.countP_append]

theorem segmentsAll_length_bounded :
    ∀ (n : Nat) (l : List Char), l.length ≤ n →
    (segmentsAll l).length = countTerm l + (if restAfter l = [] then 0 else 1) := by
  intro n
  induction n with
  | zero =>
    intro l hl
    have hl0 : l = [] := List.eq_nil_of_length_eq_zero (Nat.le_zero.mp hl)
    subst hl0
    rw [segmentsAll_none (by simp [splitFirst])]
    simp [countTerm, restAfter]
  | succ n ih =>
    intro l hl
    cases hsp : splitFirst l with
    | none =>
      have hct : countTerm l = 0 := splitFirst_none_iff.mp hsp
      rw [segmentsAll_none hsp, restAfter_of_no_term hct, hct]
      by_cases h0 : l = [] <;> simp [h0]
    | some pq =>
      obtain ⟨p, q⟩ := pq
      rw [segmentsAll_some hsp]
      obtain ⟨hl', p₀, t, hpe, ht, hp₀⟩ := splitFirst_spec hsp
      have hlt := splitFirst_length hsp
      have hrec := ih q (by omega)
      have hctp : countTerm p = 1 := by
        rw [hpe, countTerm_append, hp₀]
        simp [countTerm, List.countP_cons, ht]
      rw [List.length_cons, hrec, hl', countTerm_append, hctp,
          restAfter_append ⟨p₀, t, hpe, ht⟩]
      by_cases hres : restAfter q = [] <;> simp [hres] <;> omega

theorem segmentsAll_length (l : List Char) :
    (segmentsAll l).length = countTerm l + (if restAfter l = [] then 0 else 1) :=
  segmentsAll_length_bounded l.length l (Nat.le_refl _)

/-- Segmentation state of the `for await` loop in `processAudio`
(`src/index.ts` lines 183-217): the pending `sentenceBuffer` and the
sentence units emitted so far (each `.trim()`ed). -/
structure SegSt where
  buf : List Char
  units : List (List Char)
deriving DecidableEq

/-- One iteration of the chunk loop (lines 187-217), restricted to its
segmentation effect: `if (!text) continue`, append the chunk to
`sentenceBuffer`, run the boundary regex once, and if it matches emit
the trimmed first group (when non-blank) and keep the second group. -/
def segStep (st : SegSt) (t : List Char) : SegSt :=
  if t = [] then st
  else
    let buf := st.buf ++ t
    match splitFirst buf with
    | none => ⟨buf, st.units⟩
    | some (p, q) =>
      let sentence := trimStr p
      if sentence = [] then ⟨q, st.units⟩
      else ⟨q, st.units ++ [sentence]⟩

/-- The trailing flush after the stream ends (lines 220-235): a
non-blank `sentenceBuffer` becomes one final trimmed unit. -/
def segFinish (st : SegSt) : List (List Char) :=
  if trimStr st.buf = [] then st.units else st.units ++ [trimStr st.buf]

/-- All sentence units the streaming loop emits for a token-chunk
sequence. -/
def emittedUnits (chunks : List (List Char)) : List (List Char) :=
  segFinish (chunks.foldl segStep ⟨[], []⟩)

theorem dropWhile_eq_self_of_all {p : Char → Bool} {l : List Char}
    (h : ∀ c ∈ l, p c = false) : l.dropWhile p = l := by
  cases l with
  | nil => rfl
  | cons a l => simp [List.dropWhile_cons, h a (by simp)]

theorem trimStr_eq_self {l : List Char} (h : ∀ c ∈ l, isWS c = false) :
    trimStr l = l := by
  unfold trimStr
  rw [dropWhile_eq_self_of_all h,
      dropWhile_eq_self_of_all (fun c hc => h c (List.mem_reverse.mp hc)),
      List.reverse_reverse]

theorem seg_run_eq :
    ∀ (chunks : List (List Char)) (buf : List Char) (acc : List (List Char)),
    countTerm buf = 0 → (∀ c ∈ buf, isWS c = false) →
    (∀ ch ∈ chunks, countTerm ch ≤ 1) →
    (∀ ch ∈ chunks, ∀ c ∈ ch, isWS c = false) →
    segFinish (chunks.foldl segStep ⟨buf, acc⟩) =
      acc ++ segmentsAll (buf ++ chunks.flatten) := by
  intro chunks
  induction chunks with
  | nil =>
    intro buf acc hct hws _ _
    simp only [List.foldl_nil, List.flatten_nil, List.append_nil]
    unfold segFinish
    rw [trimStr_eq_self hws]
    by_cases h0 : buf = []
    · subst h0
      rw [segmentsAll_none (by simp [splitFirst])]
      simp
    · rw [segmentsAll_none (splitFirst_none_iff.mpr hct)]
      simp [h0]
  | cons ch rest ih =>
    intro buf acc hct hws hterm hwsc
    have htermr : ∀ c ∈ rest, countTerm c ≤ 1 := fun c hc => hterm c (by simp [hc])
    have hwsr : ∀ c ∈ rest, ∀ x ∈ c, isWS x = false := fun c hc => hwsc c (by simp [hc])
    have hwsch : ∀ c ∈ ch, isWS c = false := hwsc ch (by simp)
    by_cases hche : ch = []
    · subst hche
      have hstep : segStep ⟨buf, acc⟩ [] = ⟨buf, acc⟩ := by simp [segStep]
      rw [List.foldl_cons, hstep, ih buf acc hct hws htermr hwsr]
      simp
    · have hwsall : ∀ c ∈ buf ++ ch, isWS c = false := by
        intro c hc
        rcases List.mem_append.mp hc with h1 | h1
        · exact hws c h1
        · exact hwsch c h1
      have hle := hterm ch (by simp)
      interval_cases hc1 : countTerm ch
      · -- the chunk holds no terminal mark: the regex cannot match
        have hcb : countTerm (buf ++ ch) = 0 := by
          rw [countTerm_append, hct, hc1]
        have hnone : splitFirst (buf ++ ch) = none := splitFirst_none_iff.mpr hcb
        have hstep : segStep ⟨buf, acc⟩ ch = ⟨buf ++ ch, acc⟩ := by
          simp [segStep, hche, hnone]
        rw [List.foldl_cons, hstep, ih (buf ++ ch) acc hcb hwsall htermr hwsr]
        simp
      · -- exactly one terminal mark: the regex matches once
        have hcb : countTerm (buf ++ ch) = 1 := by
          rw [countTerm_append, hct, hc1]
        obtain ⟨pq, hpq⟩ : ∃ pq, splitFirst (buf ++ ch) = some pq := by
          cases hx : splitFirst (buf ++ ch) with
          | none => rw [splitFirst_none_iff.mp hx] at hcb; cases hcb
          | some pq => exact ⟨pq, rfl⟩
        obtain ⟨p, q⟩ := pq
        obtain ⟨heq, p₀, t, hpe, hte, hp₀⟩ := splitFirst_spec hpq
        have hctp : countTerm p = 1 := by
          rw [hpe, countTerm_append, hp₀]
          simp [countTerm, List.countP_cons, hte]
        have hctq : countTerm q = 0 := by
          have := countTerm_append p q
          rw [← heq, hcb, hctp] at this
          omega
        have hwsp : ∀ c ∈ p, isWS c = false := by
          intro c hc
          exact hwsall c (by rw [heq]; exact List.mem_append.mpr (Or.inl hc))
        have hwsq : ∀ c ∈ q, isWS c = false := by
          intro c hc
          exact hwsall c (by rw [heq]; exact List.mem_append.mpr (Or.inr hc))
        have hpne : p ≠ [] := by rw [hpe]; simp
        have hstep : segStep ⟨buf, acc⟩ ch = ⟨q, acc ++ [p]⟩ := by
          simp [segStep, hche, hpq, trimStr_eq_self hwsp, hpne]
        rw [List.foldl_cons, hstep, ih q (acc ++ [p]) hctq hwsq htermr hwsr]
        have hsp2 : splitFirst ((buf ++ ch) ++ rest.flatten) =
            some (p, q ++ rest.flatten) := splitFirst_append hpq _
        have : buf ++ (ch :: rest).flatten = (buf ++ ch) ++ rest.flatten := by
          simp [List.flatten_cons]
        rw [this, segmentsAll_some hsp2]
        simp

/-- C1, counterexample: the claim predicts that a chunk stream whose
concatenation holds k terminal marks yields exactly k units plus a
trailing unit for a non-blank remainder, and that the units concatenate
back to the original string.  The single chunk `"\na。b。c"` (k = 3
marks: the line break and two `。`) yields a single unit `a。b。c` —
the loop runs the boundary regex once per chunk, and `trim` swallows
the blank unit made by the line break — and that unit's concatenation
drops the leading line break. -/
theorem sentence_segmentation_claim_cex :
    ¬((emittedUnits [('\n' :: "a。b。c".toList)]).length =
        countTerm (List.flatten [('\n' :: "a。b。c".toList)]) +
          (if restAfter (List.flatten [('\n' :: "a。b。c".toList)]) = [] then 0 else 1) ∧
      (emittedUnits [('\n' :: "a。b。c".toList)]).flatten =
        List.flatten [('\n' :: "a。b。c".toList)]) := by
  decide

/-- C1 (amended): for chunk sequences in which every chunk contains at
most one terminal mark and no whitespace character, the streaming loop
emits exactly the left-to-right boundary decomposition of the
concatenated string: exactly `countTerm` units, plus one trailing unit
iff the remainder after the last mark is non-empty at stream end; the
concatenation of the units reconstructs the original string exactly and
in arrival order. -/
theorem sentence_segmentation_amended (chunks : List (List Char))
    (hterm : ∀ ch ∈ chunks, countTerm ch ≤ 1)
    (hws : ∀ ch ∈ chunks, ∀ c ∈ ch, isWS c = false) :
    emittedUnits chunks = segmentsAll chunks.flatten ∧
    (emittedUnits chunks).flatten = chunks.flatten ∧
    (emittedUnits chunks).length =
      countTerm chunks.flatten + (if restAfter chunks.flatten = [] then 0 else 1) := by
  have h1 : emittedUnits chunks = segmentsAll chunks.flatten := by
    unfold emittedUnits
    have := seg_run_eq chunks [] [] (by simp [countTerm]) (by simp) hterm hws
    simpa using this
  refine ⟨h1, ?_, ?_⟩
  · rw [h1]; exact segmentsAll_flatten _
  · rw [h1]; exact segmentsAll_length _

/-- Token chunks of the worked example in the specification. -/
def exTokens : List (List Char) :=
  ["こんに".toList, "ちは。".toList, "元気".toList, "です".toList,
   "か？".toList, "ありがとう".toList]

/-- C1 witness: the amended theorem applied to the specification's
example token sequence, whose hypotheses hold by computation; the loop
emits `こんにちは。`, `元気ですか？`, `ありがとう`. -/
theorem sentence_segmentation_amended_witness :
    (∀ ch ∈ exTokens, countTerm ch ≤ 1) ∧
    (∀ ch ∈ exTokens, ∀ c ∈ ch, isWS c = false) ∧
    emittedUnits exTokens = ["こんにちは。".toList, "元気ですか？".toList, "ありがとう".toList] ∧
    (emittedUnits exTokens = segmentsAll exTokens.flatten ∧
     (emittedUnits exTokens).flatten = exTokens.flatten ∧
     (emittedUnits exTokens).length =
       countTerm exTokens.flatten +
         (if restAfter exTokens.flatten = [] then 0 else 1)) :=
  ⟨by decide, by decide, by decide,
   sentence_segmentation_amended exTokens (by decide) (by decide)⟩

/-- A raw audio frame (byte chunk) as pushed into `audioChunks`. -/
abbrev Chunk := List Nat

/-- The two roles of `conversationHistory` entries (line 128). -/
inductive Role
  | user
  | model
deriving DecidableEq

/-- One `conversationHistory` turn: `{role, parts:[{text}]}`. -/
structure Turn where
  role : Role
  text : List Char
deriving DecidableEq

/-- The per-connection mutable state of the `wss.on('connection')`
closure (lines 128-131): `conversationHistory`, `audioChunks`,
`isProcessing`, and whether `processTimeout` holds a pending timer. -/
structure Conn where
  audioChunks : List Chunk
  isProcessing : Bool
  timerArmed : Bool
  history : List Turn
deriving DecidableEq

/-- The outbound JSON messages `clientWs.send` can emit. -/
inductive Msg
  | transcript (text : List Char)
  | response (text : List Char)
  | responseAppend (text : List Char)
  | audio (data : List Nat)
  | audioDone
  | error
deriving DecidableEq

/-- One read of the Gemini token stream: either a text chunk or a
thrown transport error. -/
inductive StreamEv
  | chunk (text : List Char)
  | fail
deriving DecidableEq

/-- Outcomes of the external services consumed during one cycle:
the raw STT transcript (or a thrown error), the model stream events,
and per-sentence synthesis results (WAV bytes, or a thrown error). -/
structure Oracle where
  stt : Except Unit (List Char)
  events : List StreamEv
  synth : List Char → Except Unit (List Nat)

/-- How one `processAudio` run ended. -/
inductive Outcome
  | noRun
  | tooShort
  | silent
  | success
  | failed
deriving DecidableEq

/-- The observable result of one `processAudio` invocation: the
post-run connection state, the messages sent, how the run ended,
the sentences handed to the synthesizer, and whether the recognizer
was called. -/
structure RunResult where
  state : Conn
  msgs : List Msg
  outcome : Outcome
  synthCalls : List (List Char)
  sttCalled : Bool
deriving DecidableEq

/-- The fallback reply `'すみません、応答できませんでした。'` (line 237). -/
def apology : List Char := "すみません、応答できませんでした。".toList

/-- Models `audioChunks.reduce((sum, c) => sum + c.length, 0)`. -/
def totalLen (cs : List Chunk) : Nat := (cs.map List.length).sum

/-- State of one model reply stream (lines 183-185 plus bookkeeping):
`sentenceBuffer`, `fullResponse`, `sentenceIndex`, the messages sent
so far, and the sentences sent to TTS so far. -/
structure GenState where
  sentenceBuffer : List Char
  fullResponse : List Char
  sentenceIndex : Nat
  msgs : List Msg
  synthCalls : List (List Char)
deriving DecidableEq

/-- Lines 204-208: the first sentence is sent as `response`, later
ones as `response_append`. -/
def emitMsg (idx : Nat) (s : List Char) : Msg :=
  if idx = 1 then Msg.response s else Msg.responseAppend s

/-- One iteration of the `for await` chunk loop (lines 187-217).
An `Except.error` result is a thrown synthesis error, carrying the
state at the throw (the sentence text message was already sent). -/
def procChunk (o : Oracle) (g : GenState) (t : List Char) : Except GenState GenState :=
  if t = [] then .ok g
  else
    let sentenceBuffer := g.sentenceBuffer ++ t
    let fullResponse := g.fullResponse ++ t
    match splitFirst sentenceBuffer with
    | none => .ok { g with sentenceBuffer := sentenceBuffer, fullResponse := fullResponse }
    | some (p, rest) =>
      let sentence := trimStr p
      if sentence = [] then
        .ok { g with sentenceBuffer := rest, fullResponse := fullResponse }
      else
        let idx := g.sentenceIndex + 1
        let m := emitMsg idx sentence
        match o.synth sentence with
        | .error _ =>
          .error { sentenceBuffer := rest, fullResponse := fullResponse,
                   sentenceIndex := idx, msgs := g.msgs ++ [m],
                   synthCalls := g.synthCalls ++ [sentence] }
        | .ok audioContent =>
          .ok { sentenceBuffer := rest, fullResponse := fullResponse,
                sentenceIndex := idx,
                msgs := g.msgs ++ [m, Msg.audio (audioContent.drop 44)],
                synthCalls := g.synthCalls ++ [sentence] }

/-- The whole `for await (const chunk of streamResult.stream)` loop;
a `StreamEv.fail` read throws out of the loop. -/
def runGen (o : Oracle) : GenState → List StreamEv → Except GenState GenState
  | g, [] => .ok g
  | g, StreamEv.fail :: _ => .error g
  | g, StreamEv.chunk t :: rest =>
    match procChunk o g t with
    | .error g' => .error g'
    | .ok g' => runGen o g' rest

/-- Lines 220-235: flush a non-blank trailing `sentenceBuffer` as one
final sentence (synthesis may throw). -/
def finishGen (o : Oracle) (g : GenState) : Except GenState GenState :=
  if trimStr g.sentenceBuffer = [] then .ok g
  else
    let sentence := trimStr g.sentenceBuffer
    let idx := g.sentenceIndex + 1
    let m := emitMsg idx sentence
    match o.synth sentence with
    | .error _ =>
      .error { g with
               sentenceIndex := idx,
               msgs := g.msgs ++ [m],
               synthCalls := g.synthCalls ++ [sentence] }
    | .ok audioContent =>
      .ok { g with
            sentenceIndex := idx,
            msgs := g.msgs ++ [m, Msg.audio (audioContent.drop 44)],
            synthCalls := g.synthCalls ++ [sentence] }

def genInit : GenState := ⟨[], [], 0, [], []⟩

/-- The full generation phase: stream loop then trailing flush. -/
def runGenAll (o : Oracle) : Except GenState GenState :=
  match runGen o genInit o.events with
  | .error g => .error g
  | .ok g => finishGen o g

/-- Effect on the connection state of one `message` event that arrives
while `isProcessing` is true (lines 264-281 with the `processAudio()`
call a no-op because of the guard on line 134): the frame is appended,
any pending idle timer is cleared, and — unless the size trigger fires —
a fresh 2-second idle timer is armed. -/
def frameWhileBusy (s : Conn) (c : Chunk) : Conn :=
  let s1 : Conn := { s with audioChunks := s.audioChunks ++ [c], timerArmed := false }
  if totalLen s1.audioChunks > 320000 then s1
  else { s1 with timerArmed := true }

/-- Frames that arrive at the asynchronous suspension points of a
running cycle.  The cycle itself neither reads nor writes `audioChunks`
or the timer between its initial flush and its final cleanup, and the
handler never touches `history` or `isProcessing`, so applying all
arrivals in order at one point is equivalent to any interleaving. -/
def framesArrived (s : Conn) (fd : List Chunk) : Conn :=
  fd.foldl frameWhileBusy s

/-- The asynchronous part of `processAudio` after a successful flush
of at least 16000 bytes (lines 148-256), parameterised by the external
oracle and by the frames `fd` that arrive during the run. -/
def cycleAsync (o : Oracle) (s : Conn) (fd : List Chunk) : RunResult :=
  let sMid := framesArrived s fd
  match o.stt with
  | .error _ =>
    ⟨{ sMid with isProcessing := false }, [Msg.error], Outcome.failed, [], true⟩
  | .ok raw =>
    let userText := trimStr raw
    if userText = [] then
      ⟨{ sMid with isProcessing := false }, [], Outcome.silent, [], true⟩
    else
      match runGenAll o with
      | .error g =>
        ⟨{ sMid with isProcessing := false },
         Msg.transcript userText :: (g.msgs ++ [Msg.error]),
         Outcome.failed, g.synthCalls, true⟩
      | .ok g =>
        let aiText := if g.fullResponse = [] then apology else g.fullResponse
        ⟨{ sMid with
           audioChunks := [], timerArmed := false, isProcessing := false,
           history := sMid.history ++ [⟨Role.user, userText⟩, ⟨Role.model, aiText⟩] },
         Msg.transcript userText :: (g.msgs ++ [Msg.audioDone]),
         Outcome.success, g.synthCalls, true⟩

/-- Models `processAudio` (lines 133-257): the guard, the flush of
`audioChunks` into one buffer, the 16000-byte noise floor, and the
asynchronous recognition/generation/synthesis cycle. -/
def processAudio (o : Oracle) (s : Conn) (fd : List Chunk) : RunResult :=
  if s.audioChunks.length = 0 ∨ s.isProcessing = true then
    ⟨s, [], Outcome.noRun, [], false⟩
  else
    let audioBuffer := s.audioChunks.flatten
    let s1 : Conn := { s with isProcessing := true, audioChunks := [] }
    if audioBuffer.length < 16000 then
      ⟨{ s1 with isProcessing := false }, [], Outcome.tooShort, [], false⟩
    else cycleAsync o s1 fd

/-- One `message` event with an audio frame (lines 264-281): append the
frame, clear any pending idle timer, then either call `processAudio`
synchronously (size trigger, > 320000 bytes) or arm a fresh idle
timer.  Returns the new connection state and, when `processAudio` was
invoked, its result. -/
def onFrame (o : Oracle) (s : Conn) (c : Chunk) (fd : List Chunk) :
    Conn × Option RunResult :=
  let s1 : Conn := { s with audioChunks := s.audioChunks ++ [c], timerArmed := false }
  if totalLen s1.audioChunks > 320000 then
    let r := processAudio o s1 fd
    (r.state, some r)
  else ({ s1 with timerArmed := true }, none)

theorem processAudio_guard (o : Oracle) (s : Conn) (fd : List Chunk)
    (h : s.audioChunks.length = 0 ∨ s.isProcessing = true) :
    processAudio o s fd = ⟨s, [], Outcome.noRun, [], false⟩ := by
  unfold processAudio
  rw [if_pos h]

theorem processAudio_tooShort (o : Oracle) (s : Conn) (fd : List Chunk)
    (h1 : ¬(s.audioChunks.length = 0 ∨ s.isProcessing = true))
    (h2 : s.audioChunks.flatten.length < 16000) :
    processAudio o s fd =
      ⟨{ s with audioChunks := [], isProcessing := false }, [],
       Outcome.tooShort, [], false⟩ := by
  simp only [processAudio]
  rw [if_neg h1, if_pos h2]

theorem processAudio_run_eq (o : Oracle) (s : Conn) (fd : List Chunk)
    (h1 : ¬(s.audioChunks.length = 0 ∨ s.isProcessing = true))
    (h2 : ¬ s.audioChunks.flatten.length < 16000) :
    processAudio o s fd =
      cycleAsync o { s with isProcessing := true, audioChunks := [] } fd := by
  simp only [processAudio]
  rw [if_neg h1, if_neg h2]

theorem cycleAsync_stt_error (o : Oracle) (s : Conn) (fd : List Chunk) (e : Unit)
    (h : o.stt = Except.error e) :
    cycleAsync o s fd =
      ⟨{ framesArrived s fd with isProcessing := false }, [Msg.error],
       Outcome.failed, [], true⟩ := by
  simp only [cycleAsync]
  rw [h]

theorem cycleAsync_silent (o : Oracle) (s : Conn) (fd : List Chunk) (raw : List Char)
    (h : o.stt = Except.ok raw) (h2 : trimStr raw = []) :
    cycleAsync o s fd =
      ⟨{ framesArrived s fd with isProcessing := false }, [],
       Outcome.silent, [], true⟩ := by
  simp only [cycleAsync]
  rw [h]
  simp [h2]

theorem cycleAsync_gen_error (o : Oracle) (s : Conn) (fd : List Chunk)
    (raw : List Char) (g : GenState)
    (h : o.stt = Except.ok raw) (h2 : trimStr raw ≠ [])
    (h3 : runGenAll o = Except.error g) :
    cycleAsync o s fd =
      ⟨{ framesArrived s fd with isProcessing := false },
       Msg.transcript (trimStr raw) :: (g.msgs ++ [Msg.error]),
       Outcome.failed, g.synthCalls, true⟩ := by
  simp only [cycleAsync]
  rw [h]
  simp only [if_neg h2]
  rw [h3]

theorem cycleAsync_success (o : Oracle) (s : Conn) (fd : List Chunk)
    (raw : List Char) (g : GenState)
    (h : o.stt = Except.ok raw) (h2 : trimStr raw ≠ [])
    (h3 : runGenAll o = Except.ok g) :
    cycleAsync o s fd =
      ⟨{ framesArrived s fd with
         audioChunks := [], timerArmed := false, isProcessing := false,
         history := (framesArrived s fd).history ++
           [⟨Role.user, trimStr raw⟩,
            ⟨Role.model, if g.fullResponse = [] then apology else g.fullResponse⟩] },
       Msg.transcript (trimStr raw) :: (g.msgs ++ [Msg.audioDone]),
       Outcome.success, g.synthCalls, true⟩ := by
  simp only [cycleAsync]
  rw [h]
  simp only [if_neg h2]
  rw [h3]

theorem frameWhileBusy_proj (s : Conn) (c : Chunk) :
    (frameWhileBusy s c).isProcessing = s.isProcessing ∧
    (frameWhileBusy s c).history = s.history := by
  simp only [frameWhileBusy]
  split <;> exact ⟨rfl, rfl⟩

theorem framesArrived_proj : ∀ (fd : List Chunk) (s : Conn),
    (framesArrived s fd).isProcessing = s.isProcessing ∧
    (framesArrived s fd).history = s.history := by
  intro fd
  induction fd with
  | nil => intro s; exact ⟨rfl, rfl⟩
  | cons c rest ih =>
    intro s
    obtain ⟨h1, h2⟩ := ih (frameWhileBusy s c)
    obtain ⟨h3, h4⟩ := frameWhileBusy_proj s c
    unfold framesArrived at h1 h2 ⊢
    rw [List.foldl_cons]
    exact ⟨h1.trans h3, h2.trans h4⟩

/-- The message kinds the generation loop itself sends (sentence text
and sentence audio). -/
def isSentenceMsg : Msg → Bool
  | .response _ => true
  | .responseAppend _ => true
  | .audio _ => true
  | _ => false

theorem emitMsg_sentence (idx : Nat) (s : List Char) :
    isSentenceMsg (emitMsg idx s) = true := by
  unfold emitMsg
  split <;> rfl

theorem procChunk_msgs (o : Oracle) (g : GenState) (t : List Char) (g' : GenState)
    (hg : procChunk o g t = Except.ok g' ∨ procChunk o g t = Except.error g') :
    ∃ ms, g'.msgs = g.msgs ++ ms ∧ ∀ m ∈ ms, isSentenceMsg m = true := by
  by_cases ht : t = []
  · simp only [procChunk, if_pos ht] at hg
    rcases hg with h | h
    · cases h; exact ⟨[], by simp, by simp⟩
    · cases h
  · simp only [procChunk, if_neg ht] at hg
    cases hsp : splitFirst (g.sentenceBuffer ++ t) with
    | none =>
      simp only [hsp] at hg
      rcases hg with h | h
      · cases h; exact ⟨[], by simp, by simp⟩
      · cases h
    | some pq =>
      obtain ⟨p, rest⟩ := pq
      simp only [hsp] at hg
      by_cases hs : trimStr p = []
      · simp only [if_pos hs] at hg
        rcases hg with h | h
        · cases h; exact ⟨[], by simp, by simp⟩
        · cases h
      · simp only [if_neg hs] at hg
        cases hsyn : o.synth (trimStr p) with
        | error e =>
          simp only [hsyn] at hg
          rcases hg with h | h
          · cases h
          · cases h
            refine ⟨[emitMsg (g.sentenceIndex + 1) (trimStr p)], rfl, ?_⟩
            intro m hm
            simp at hm
            rw [hm]
            exact emitMsg_sentence _ _
        | ok audioContent =>
          simp only [hsyn] at hg
          rcases hg with h | h
          · cases h
            refine ⟨[emitMsg (g.sentenceIndex + 1) (trimStr p),
                     Msg.audio (audioContent.drop 44)], rfl, ?_⟩
            intro m hm
            rcases List.mem_cons.mp hm with h1 | h1
            · rw [h1]; exact emitMsg_sentence _ _
            · simp at h1; rw [h1]; rfl
          · cases h

theorem finishGen_msgs (o : Oracle) (g : GenState) (g' : GenState)
    (hg : finishGen o g = Except.ok g' ∨ finishGen o g = Except.error g') :
    ∃ ms, g'.msgs = g.msgs ++ ms ∧ ∀ m ∈ ms, isSentenceMsg m = true := by
  by_cases hs : trimStr g.sentenceBuffer = []
  · simp only [finishGen, if_pos hs] at hg
    rcases hg with h | h
    · cases h; exact ⟨[], by simp, by simp⟩
    · cases h
  · simp only [finishGen, if_neg hs] at hg
    cases hsyn : o.synth (trimStr g.sentenceBuffer) with
    | error e =>
      simp only [hsyn] at hg
      rcases hg with h | h
      · cases h
      · cases h
        refine ⟨[emitMsg (g.sentenceIndex + 1) (trimStr g.sentenceBuffer)], rfl, ?_⟩
        intro m hm
        simp at hm
        rw [hm]
        exact emitMsg_sentence _ _
    | ok audioContent =>
      simp only [hsyn] at hg
      rcases hg with h | h
      · cases h
        refine ⟨[emitMsg (g.sentenceIndex + 1) (trimStr g.sentenceBuffer),
                 Msg.audio (audioContent.drop 44)], rfl, ?_⟩
        intro m hm
        rcases List.mem_cons.mp hm with h1 | h1
        · rw [h1]; exact emitMsg_sentence _ _
        · simp at h1; rw [h1]; rfl
      · cases h

theorem runGen_msgs (o : Oracle) :
    ∀ (evs : List StreamEv) (g g' : GenState),
    (runGen o g evs = Except.ok g' ∨ runGen o g evs = Except.error g') →
    ∃ ms, g'.msgs = g.msgs ++ ms ∧ ∀ m ∈ ms, isSentenceMsg m = true := by
  intro evs
  induction evs with
  | nil =>
    intro g g' hg
    unfold runGen at hg
    rcases hg with h | h
    · cases h; exact ⟨[], by simp, by simp⟩
    · cases h
  | cons e rest ih =>
    intro g g' hg
    cases e with
    | fail =>
      unfold runGen at hg
      rcases hg with h | h
      · cases h
      · cases h; exact ⟨[], by simp, by simp⟩
    | chunk t =>
      unfold runGen at hg
      cases hpc : procChunk o g t with
      | error g1 =>
        simp only [hpc] at hg
        rcases hg with h | h
        · cases h
        · cases h
          exact procChunk_msgs o g t g' (Or.inr hpc)
      | ok g1 =>
        simp only [hpc] at hg
        obtain ⟨ms1, hms1, hall1⟩ := procChunk_msgs o g t g1 (Or.inl hpc)
        obtain ⟨ms2, hms2, hall2⟩ := ih g1 g' hg
        refine ⟨ms1 ++ ms2, by rw [hms2, hms1, List.append_assoc], ?_⟩
        intro m hm
        rcases List.mem_append.mp hm with h1 | h1
        · exact hall1 m h1
        · exact hall2 m h1

theorem runGenAll_msgs (o : Oracle) (g' : GenState)
    (hg : runGenAll o = Except.ok g' ∨ runGenAll o = Except.error g') :
    ∀ m ∈ g'.msgs, isSentenceMsg m = true := by
  unfold runGenAll at hg
  cases hrg : runGen o genInit o.events with
  | error g1 =>
    simp only [hrg] at hg
    rcases hg with h | h
    · cases h
    · cases h
      obtain ⟨ms, hms, hall⟩ := runGen_msgs o o.events genInit g' (Or.inr hrg)
      intro m hm
      rw [hms] at hm
      simp only [genInit, List.nil_append] at hm
      exact hall m hm
  | ok g1 =>
    simp only [hrg] at hg
    obtain ⟨ms1, hms1, hall1⟩ := runGen_msgs o o.events genInit g1 (Or.inl hrg)
    obtain ⟨ms2, hms2, hall2⟩ := finishGen_msgs o g1 g' hg
    intro m hm
    rw [hms2, hms1] at hm
    simp only [genInit, List.nil_append] at hm
    rcases List.mem_append.mp hm with h1 | h1
    · exact hall1 m h1
    · exact hall2 m h1

/-- Number of `{type:'error'}` messages in a message list. -/
def countError (ms : List Msg) : Nat := ms.countP (fun m => decide (m = Msg.error))

/-- Number of `{type:'audio_done'}` messages in a message list. -/
def countDone (ms : List Msg) : Nat := ms.countP (fun m => decide (m = Msg.audioDone))

theorem countError_of_sentence {ms : List Msg}
    (h : ∀ m ∈ ms, isSentenceMsg m = true) : countError ms = 0 := by
  unfold countError
  rw [List.countP_eq_zero]
  intro m hm
  have := h m hm
  cases m <;> simp_all [isSentenceMsg]

theorem countDone_of_sentence {ms : List Msg}
    (h : ∀ m ∈ ms, isSentenceMsg m = true) : countDone ms = 0 := by
  unfold countDone
  rw [List.countP_eq_zero]
  intro m hm
  have := h m hm
  cases m <;> simp_all [isSentenceMsg]

/-- Models `conversationHistory.slice(-10)`: the most recent (at most) 10
turns. -/
def lastN (n : Nat) (l : List Turn) : List Turn := l.drop (l.length - n)

/-- The `while` loop of lines 175-177: drop leading turns whose role is
not `'user'`. -/
def dropLeadingNonUser : List Turn → List Turn
  | [] => []
  | t :: rest => if t.role ≠ Role.user then dropLeadingNonUser rest else t :: rest

/-- Lines 173-177: the history actually passed to `model.startChat`. -/
def slicedHistory (h : List Turn) : List Turn := dropLeadingNonUser (lastN 10 h)

theorem dropLeadingNonUser_eq_dropWhile : ∀ l : List Turn,
    dropLeadingNonUser l = l.dropWhile (fun t => decide (t.role ≠ Role.user)) := by
  intro l
  induction l with
  | nil => rfl
  | cons t rest ih =>
    by_cases ht : t.role = Role.user
    · simp [dropLeadingNonUser, List.dropWhile_cons, ht]
    · simp [dropLeadingNonUser, List.dropWhile_cons, ht, ih]

theorem dropWhile_head?_find? : ∀ l : List Turn,
    (l.dropWhile (fun t => decide (t.role ≠ Role.user))).head? =
      l.find? (fun t => decide (t.role = Role.user)) := by
  intro l
  induction l with
  | nil => rfl
  | cons t rest ih =>
    by_cases ht : t.role = Role.user
    · simp [List.dropWhile_cons, List.find?_cons, ht]
    · have ih' := ih
      simp only [List.dropWhile_cons, List.find?_cons, ht] at ih' ⊢
      simp only [decide_not] at ih' ⊢
      simp [ht, ih']

theorem dropWhile_isSuffix (p : Turn → Bool) : ∀ l : List Turn, l.dropWhile p <:+ l := by
  intro l
  induction l with
  | nil => exact List.suffix_refl _
  | cons t rest ih =>
    by_cases ht : p t = true
    · simp only [List.dropWhile_cons, ht, if_true]
      exact ih.trans (List.suffix_cons t rest)
    · have ht' : p t = false := by simpa using ht
      simp only [List.dropWhile_cons, ht', Bool.false_eq_true, if_false]
      exact List.suffix_refl _

/-- C5: the history passed to the streaming generator is
`conversationHistory.slice(-10)` with its leading non-user turns
dropped: it is a suffix of the last-10 window, and it is empty or
starts with the first user-authored turn of that window. -/
theorem history_truncation (h : List Turn) :
    slicedHistory h = (lastN 10 h).dropWhile (fun t => decide (t.role ≠ Role.user)) ∧
    (slicedHistory h).head? = (lastN 10 h).find? (fun t => decide (t.role = Role.user)) ∧
    slicedHistory h <:+ lastN 10 h := by
  refine ⟨dropLeadingNonUser_eq_dropWhile _, ?_, ?_⟩
  · rw [slicedHistory, dropLeadingNonUser_eq_dropWhile]
    exact dropWhile_head?_find? _
  · rw [slicedHistory, dropLeadingNonUser_eq_dropWhile]
    exact dropWhile_isSuffix _ _

/-- Write `data` into `buf` at byte offset `off`: models `Buffer.write`,
`Buffer.writeUInt32LE`, `Buffer.writeUInt16LE` and `Buffer.copy` into the
allocated buffer (every write in `pcm16ToWav` is within bounds). -/
def writeBytes (buf : List Nat) (off : Nat) (data : List Nat) : List Nat :=
  buf.take off ++ data ++ buf.drop (off + data.length)

/-- Little-endian 32-bit byte encoding. -/
def u32le (n : Nat) : List Nat :=
  [n % 256, n / 256 % 256, n / 65536 % 256, n / 16777216 % 256]

/-- Little-endian 16-bit byte encoding. -/
def u16le (n : Nat) : List Nat := [n % 256, n / 256 % 256]

/-- The 13 header writes of `pcm16ToWav` (`src/index.ts` lines
302-314), in source order, with `numChannels = 1` and
`bitsPerSample = 16`: offset paired with the bytes written. -/
def wavHeaderWrites (sampleRate dataSize : Nat) : List (Nat × List Nat) :=
  [(0, [82, 73, 70, 70]),
   (4, u32le (36 + dataSize)),
   (8, [87, 65, 86, 69]),
   (12, [102, 109, 116, 32]),
   (16, u32le 16),
   (20, u16le 1),
   (22, u16le 1),
   (24, u32le sampleRate),
   (28, u32le (sampleRate * 1 * (16 / 8))),
   (32, u16le (1 * (16 / 8))),
   (34, u16le 16),
   (36, [100, 97, 116, 97]),
   (40, u32le dataSize)]

/-- Models `pcm16ToWav` (lines 294-318): allocate a zero-filled buffer of
`44 + dataSize` bytes, write the header fields, then copy the raw PCM
payload at offset 44. -/
def pcm16ToWav (pcmData : List Nat) (sampleRate : Nat) : List Nat :=
  writeBytes
    ((wavHeaderWrites sampleRate pcmData.length).foldl
      (fun b f => writeBytes b f.1 f.2)
      (List.replicate (44 + pcmData.length) 0))
    44 pcmData

theorem writeBytes_length {buf : List Nat} {off : Nat} {data : List Nat}
    (h : off + data.length ≤ buf.length) :
    (writeBytes buf off data).length = buf.length := by
  unfold writeBytes
  simp [List.length_take, List.length_drop]
  omega

theorem foldl_writeBytes_length : ∀ (fields : List (Nat × List Nat)) (buf : List Nat),
    (∀ f ∈ fields, f.1 + f.2.length ≤ buf.length) →
    (fields.foldl (fun b f => writeBytes b f.1 f.2) buf).length = buf.length := by
  intro fields
  induction fields with
  | nil => intro buf _; rfl
  | cons f rest ih =>
    intro buf h
    rw [List.foldl_cons]
    have h1 : f.1 + f.2.length ≤ buf.length := h f (by simp)
    have hlen := writeBytes_length h1
    rw [ih (writeBytes buf f.1 f.2) (fun g hg => by rw [hlen]; exact h g (by simp [hg])),
        hlen]

theorem drop_writeBytes_final {buf pcm : List Nat} (h : buf.length = 44 + pcm.length) :
    (writeBytes buf 44 pcm).drop 44 = pcm := by
  unfold writeBytes
  have hdrop : buf.drop (44 + pcm.length) = [] := List.drop_eq_nil_of_le (by omega)
  have ht : (buf.take 44).length = 44 := by rw [List.length_take]; omega
  rw [hdrop, List.append_nil]
  calc (buf.take 44 ++ pcm).drop 44
      = (buf.take 44 ++ pcm).drop (buf.take 44).length := by rw [ht]
    _ = pcm := List.drop_left _ _

/-- C7: wrapping raw PCM with `pcm16ToWav` and stripping the fixed
44-byte header (`buffer.slice(44)`) returns the original PCM bytes. -/
theorem wav_roundtrip (pcmData : List Nat) (sampleRate : Nat) :
    (pcm16ToWav pcmData sampleRate).drop 44 = pcmData := by
  unfold pcm16ToWav
  apply drop_writeBytes_final
  rw [foldl_writeBytes_length]
  · rw [List.length_replicate]
  · intro f hf
    rw [List.length_replicate]
    fin_cases hf <;> simp [u32le, u16le] <;> omega

theorem onFrame_busy_eq (o : Oracle) (s : Conn) (c : Chunk) (fd : List Chunk)
    (h : s.isProcessing = true) :
    onFrame o s c fd =
      (if totalLen (s.audioChunks ++ [c]) > 320000
       then ({ s with audioChunks := s.audioChunks ++ [c], timerArmed := false },
             some ⟨{ s with audioChunks := s.audioChunks ++ [c], timerArmed := false },
                   [], Outcome.noRun, [], false⟩)
       else ({ s with audioChunks := s.audioChunks ++ [c], timerArmed := true }, none)) := by
  simp only [onFrame]
  split
  · rw [processAudio_guard o
      { s with audioChunks := s.audioChunks ++ [c], timerArmed := false } fd (Or.inr h)]
  · rfl

/-- The erroring-recognizer oracle. -/
def oFail : Oracle := ⟨Except.error (), [], fun _ => Except.error ()⟩

/-- A connection state in the middle of a running cycle: the flush
emptied `audioChunks` and set `isProcessing`. -/
def sBusy : Conn := ⟨[], true, false, []⟩

/-- An idle connection holding one buffered 16000-byte utterance. -/
def sBig : Conn := ⟨[List.replicate 16000 0], false, false, []⟩

/-- An idle connection holding a 3-byte (sub-floor) utterance. -/
def sSmall : Conn := ⟨[[1, 2, 3]], false, false, []⟩

/-- A fully successful cycle: transcript `はい`, one stream chunk
`了解です。`, synthesis returns a 50-byte WAV. -/
def oOk : Oracle :=
  ⟨Except.ok "はい".toList, [StreamEv.chunk "了解です。".toList],
   fun _ => Except.ok (List.replicate 50 7)⟩

/-- A cycle whose transcript is whitespace only (empty after trim). -/
def oSilent : Oracle := ⟨Except.ok [' '], [], fun _ => Except.ok []⟩

/-- A cycle whose model stream yields no text at all. -/
def oEmpty : Oracle :=
  ⟨Except.ok "はい".toList, [StreamEv.chunk []], fun _ => Except.ok []⟩

theorem sBig_guard : ¬(sBig.audioChunks.length = 0 ∨ sBig.isProcessing = true) := by
  simp only [sBig, List.length_cons, List.length_nil]
  simp

theorem sBig_len : ¬ sBig.audioChunks.flatten.length < 16000 := by
  simp only [sBig, List.flatten_cons, List.flatten_nil, List.append_nil,
             List.length_replicate]
  omega

/-- C2, counterexample: a frame that arrives while the busy flag is set
is buffered, and when the cycle ends in an upstream error it is still
in `audioChunks` after the cycle completes — the discard on line 245
runs only on the success path. -/
theorem echo_suppression_claim_cex :
    (processAudio oFail sBig [[9, 9, 9]]).state.isProcessing = false ∧
    [9, 9, 9] ∈ (processAudio oFail sBig [[9, 9, 9]]).state.audioChunks := by
  rw [processAudio_run_eq oFail sBig [[9, 9, 9]] sBig_guard sBig_len]
  decide

/-- C2 (amended): frames arriving while the busy flag is true are
buffered, not dropped on arrival; they are cleared from `audioChunks`
(and the idle timer disarmed) only when the reply cycle completes
successfully. -/
theorem echo_discard_on_success (o : Oracle) (s : Conn) (fd : List Chunk)
    (h : (processAudio o s fd).outcome = Outcome.success) :
    (processAudio o s fd).state.audioChunks = [] ∧
    (processAudio o s fd).state.timerArmed = false := by
  by_cases h1 : s.audioChunks.length = 0 ∨ s.isProcessing = true
  · rw [processAudio_guard o s fd h1] at h; simp at h
  · by_cases h2 : s.audioChunks.flatten.length < 16000
    · rw [processAudio_tooShort o s fd h1 h2] at h; simp at h
    · rw [processAudio_run_eq o s fd h1 h2] at h ⊢
      cases hstt : o.stt with
      | error e => rw [cycleAsync_stt_error o _ fd e hstt] at h; simp at h
      | ok raw =>
        by_cases h3 : trimStr raw = []
        · rw [cycleAsync_silent o _ fd raw hstt h3] at h; simp at h
        · cases hg : runGenAll o with
          | error g => rw [cycleAsync_gen_error o _ fd raw g hstt h3 hg] at h; simp at h
          | ok g =>
            rw [cycleAsync_success o _ fd raw g hstt h3 hg]
            exact ⟨rfl, rfl⟩

/-- C2 witness: a successful cycle with a frame buffered mid-cycle
leaves `audioChunks` empty and the timer disarmed. -/
theorem echo_discard_on_success_witness :
    (processAudio oOk sBig [[9, 9, 9]]).outcome = Outcome.success ∧
    ((processAudio oOk sBig [[9, 9, 9]]).state.audioChunks = [] ∧
     (processAudio oOk sBig [[9, 9, 9]]).state.timerArmed = false) := by
  have hs : (processAudio oOk sBig [[9, 9, 9]]).outcome = Outcome.success := by
    rw [processAudio_run_eq oOk sBig [[9, 9, 9]] sBig_guard sBig_len]
    decide
  exact ⟨hs, echo_discard_on_success oOk sBig [[9, 9, 9]] hs⟩

/-- C3, counterexample: in a reachable state with `isProcessing` true,
the arrival of a (sub-threshold) frame does arm a fresh idle-flush
timer — line 280 runs with no `isProcessing` guard. -/
theorem busy_frame_timer_claim_cex :
    sBusy.isProcessing = true ∧
    (onFrame oFail sBusy [0] []).1.timerArmed = true := by
  decide

/-- C3 (amended): a frame arriving while `isProcessing` is true clears
any pending idle timer and arms a fresh one exactly when the
accumulated bytes stay at or below the 320000-byte size trigger; it
appends the frame and never starts a recognizer call. -/
theorem busy_frame_arms_timer (o : Oracle) (s : Conn) (c : Chunk) (fd : List Chunk)
    (h : s.isProcessing = true) :
    ((onFrame o s c fd).1.timerArmed = true ↔ totalLen (s.audioChunks ++ [c]) ≤ 320000) ∧
    (onFrame o s c fd).1.audioChunks = s.audioChunks ++ [c] ∧
    ((onFrame o s c fd).2.all fun r => decide (r.sttCalled = false)) = true := by
  rw [onFrame_busy_eq o s c fd h]
  by_cases hgt : totalLen (s.audioChunks ++ [c]) > 320000
  · rw [if_pos hgt]
    refine ⟨?_, rfl, rfl⟩
    constructor
    · intro hf; exact absurd hf (by simp)
    · intro hle; omega
  · rw [if_neg hgt]
    refine ⟨?_, rfl, rfl⟩
    constructor
    · intro _; omega
    · intro _; rfl

/-- C3 witness: the amended theorem at a concrete mid-cycle state. -/
theorem busy_frame_arms_timer_witness :
    ((onFrame oFail sBusy [1, 2] []).1.timerArmed = true ↔
      totalLen (sBusy.audioChunks ++ [[1, 2]]) ≤ 320000) ∧
    (onFrame oFail sBusy [1, 2] []).1.audioChunks = sBusy.audioChunks ++ [[1, 2]] ∧
    ((onFrame oFail sBusy [1, 2] []).2.all fun r => decide (r.sttCalled = false)) = true :=
  busy_frame_arms_timer oFail sBusy [1, 2] [] rfl

/-- C4: while a cycle is running (`isProcessing` true), both flush
triggers are inert: a direct `processAudio` invocation (idle-timer
elapse) returns immediately with no state change, no message and no
recognizer call, and a size-trigger frame arrival starts no
recognizer/generator/synthesizer chain either. -/
theorem single_inflight_cycle (o : Oracle) (s : Conn) (fd fd' : List Chunk) (c : Chunk)
    (h : s.isProcessing = true) :
    processAudio o s fd = ⟨s, [], Outcome.noRun, [], false⟩ ∧
    ((onFrame o s c fd').2.all fun r =>
      decide (r.outcome = Outcome.noRun ∧ r.sttCalled = false)) = true := by
  refine ⟨processAudio_guard o s fd (Or.inr h), ?_⟩
  rw [onFrame_busy_eq o s c fd' h]
  by_cases hgt : totalLen (s.audioChunks ++ [c]) > 320000
  · rw [if_pos hgt]; rfl
  · rw [if_neg hgt]; rfl

/-- C4 witness: the guard at a concrete busy state. -/
theorem single_inflight_cycle_witness :
    sBusy.isProcessing = true ∧
    (processAudio oFail sBusy [] = ⟨sBusy, [], Outcome.noRun, [], false⟩ ∧
     ((onFrame oFail sBusy [0] []).2.all fun r =>
       decide (r.outcome = Outcome.noRun ∧ r.sttCalled = false)) = true) :=
  ⟨rfl, single_inflight_cycle oFail sBusy [] [] [0] rfl⟩

/-- C6: a flush below the 16000-byte noise floor never reaches the
recognizer, sends nothing, and leaves the busy flag false; a flush
whose transcript trims to empty ends the cycle silently with the busy
flag released — neither path produces an error message. -/
theorem input_noise_absorbed (o : Oracle) (s : Conn) (fd : List Chunk) (raw : List Char)
    (hne : s.audioChunks.length ≠ 0) (hidle : s.isProcessing = false) :
    (s.audioChunks.flatten.length < 16000 →
      processAudio o s fd =
        ⟨{ s with audioChunks := [] }, [], Outcome.tooShort, [], false⟩) ∧
    (¬ s.audioChunks.flatten.length < 16000 → o.stt = Except.ok raw → trimStr raw = [] →
      (processAudio o s fd).msgs = [] ∧
      (processAudio o s fd).outcome = Outcome.silent ∧
      (processAudio o s fd).state.isProcessing = false ∧
      (processAudio o s fd).synthCalls = [] ∧
      (processAudio o s fd).state.history = s.history) := by
  obtain ⟨ac, ip, ta, hist⟩ := s
  simp only at hne hidle ⊢
  subst hidle
  have h1 : ¬((Conn.mk ac false ta hist).audioChunks.length = 0 ∨
      (Conn.mk ac false ta hist).isProcessing = true) := by
    simp only [not_or]
    exact ⟨hne, by simp⟩
  constructor
  · intro h2
    rw [processAudio_tooShort o _ fd h1 h2]
  · intro h2 hstt hraw
    rw [processAudio_run_eq o _ fd h1 h2,
        cycleAsync_silent o _ fd raw hstt hraw]
    refine ⟨rfl, rfl, rfl, rfl, ?_⟩
    exact (framesArrived_proj fd (Conn.mk [] true ta hist)).2

/-- C6 witness: the too-short path at a 3-byte buffer, and the
empty-transcript path at a whitespace-only transcript. -/
theorem input_noise_absorbed_witness :
    (processAudio oFail sSmall [] =
      ⟨⟨[], false, false, []⟩, [], Outcome.tooShort, [], false⟩) ∧
    ((processAudio oSilent sBig []).msgs = [] ∧
     (processAudio oSilent sBig []).outcome = Outcome.silent ∧
     (processAudio oSilent sBig []).state.isProcessing = false ∧
     (processAudio oSilent sBig []).synthCalls = [] ∧
     (processAudio oSilent sBig []).state.history = sBig.history) := by
  constructor
  · exact (input_noise_absorbed oFail sSmall [] [] (by decide) rfl).1 (by decide)
  · exact (input_noise_absorbed oSilent sBig [] [' '] (by decide) rfl).2
      (by
        have := sBig_len
        simpa using this)
      rfl (by decide)

theorem runGen_empty_chunks (o : Oracle) :
    ∀ (evs : List StreamEv), (∀ e ∈ evs, e = StreamEv.chunk []) →
    ∀ g, runGen o g evs = Except.ok g := by
  intro evs
  induction evs with
  | nil => intro _ g; rfl
  | cons e rest ih =>
    intro h g
    have he : e = StreamEv.chunk [] := h e (by simp)
    subst he
    have hpc : procChunk o g [] = Except.ok g := by simp [procChunk]
    unfold runGen
    simp only [hpc]
    exact ih (fun e he => h e (by simp [he])) g

theorem runGenAll_empty_events (o : Oracle) (h : ∀ e ∈ o.events, e = StreamEv.chunk []) :
    runGenAll o = Except.ok genInit := by
  unfold runGenAll
  rw [runGen_empty_chunks o o.events h genInit]
  rfl

/-- C8: when the model stream yields no text at all, the assistant turn
committed to history is the fixed apology string, no synthesis call is
made and no `response`/`response_append`/`audio` message is sent; the
cycle still emits the transcript and the completion signal. -/
theorem empty_stream_fallback (o : Oracle) (s : Conn) (fd : List Chunk) (raw : List Char)
    (hstt : o.stt = Except.ok raw) (hne : trimStr raw ≠ [])
    (hev : ∀ e ∈ o.events, e = StreamEv.chunk [])
    (h1 : ¬(s.audioChunks.length = 0 ∨ s.isProcessing = true))
    (h2 : ¬ s.audioChunks.flatten.length < 16000) :
    (processAudio o s fd).msgs = [Msg.transcript (trimStr raw), Msg.audioDone] ∧
    (processAudio o s fd).synthCalls = [] ∧
    (processAudio o s fd).state.history =
      s.history ++ [⟨Role.user, trimStr raw⟩, ⟨Role.model, apology⟩] := by
  rw [processAudio_run_eq o s fd h1 h2,
      cycleAsync_success o _ fd raw genInit hstt hne (runGenAll_empty_events o hev)]
  refine ⟨rfl, rfl, ?_⟩
  have hh := (framesArrived_proj fd { s with isProcessing := true, audioChunks := [] }).2
  simp only [genInit]
  rw [hh]
  rfl

/-- C8 witness: a cycle whose stream carries one empty chunk. -/
theorem empty_stream_fallback_witness :
    trimStr "はい".toList ≠ [] ∧
    ((processAudio oEmpty sBig []).msgs =
       [Msg.transcript (trimStr "はい".toList), Msg.audioDone] ∧
     (processAudio oEmpty sBig []).synthCalls = [] ∧
     (processAudio oEmpty sBig []).state.history =
       sBig.history ++ [⟨Role.user, trimStr "はい".toList⟩, ⟨Role.model, apology⟩]) :=
  ⟨by decide,
   empty_stream_fallback oEmpty sBig [] "はい".toList rfl (by decide) (by decide)
     sBig_guard sBig_len⟩

/-- C9: whenever a cycle ends in an upstream failure (recognition,
stream read, or synthesis), exactly one generic error message is sent
and it is the last message (everything already emitted stays emitted),
the busy flag ends released, and the history is untouched, so the next
flush starts fresh. -/
theorem upstream_failure_recovery (o : Oracle) (s : Conn) (fd : List Chunk)
    (h : (processAudio o s fd).outcome = Outcome.failed) :
    countError (processAudio o s fd).msgs = 1 ∧
    (processAudio o s fd).msgs.getLast? = some Msg.error ∧
    (processAudio o s fd).state.isProcessing = false ∧
    (processAudio o s fd).state.history = s.history := by
  by_cases h1 : s.audioChunks.length = 0 ∨ s.isProcessing = true
  · rw [processAudio_guard o s fd h1] at h; simp at h
  · by_cases h2 : s.audioChunks.flatten.length < 16000
    · rw [processAudio_tooShort o s fd h1 h2] at h; simp at h
    · rw [processAudio_run_eq o s fd h1 h2] at h ⊢
      have hh := (framesArrived_proj fd { s with isProcessing := true, audioChunks := [] }).2
      cases hstt : o.stt with
      | error e =>
        rw [cycleAsync_stt_error o _ fd e hstt]
        refine ⟨rfl, rfl, rfl, ?_⟩
        rw [show ({ framesArrived { s with isProcessing := true, audioChunks := [] } fd
              with isProcessing := false } : Conn).history =
            (framesArrived { s with isProcessing := true, audioChunks := [] } fd).history
          from rfl, hh]
      | ok raw =>
        by_cases h3 : trimStr raw = []
        · rw [cycleAsync_silent o _ fd raw hstt h3] at h; simp at h
        · cases hg : runGenAll o with
          | ok g => rw [cycleAsync_success o _ fd raw g hstt h3 hg] at h; simp at h
          | error g =>
            rw [cycleAsync_gen_error o _ fd raw g hstt h3 hg]
            have hsent := runGenAll_msgs o g (Or.inr hg)
            have hce : countError g.msgs = 0 := countError_of_sentence hsent
            refine ⟨?_, ?_, rfl, ?_⟩
            · unfold countError at hce ⊢
              simp [List.countP_cons, List.countP_append, hce]
            · rw [show Msg.transcript (trimStr raw) :: (g.msgs ++ [Msg.error]) =
                    (Msg.transcript (trimStr raw) :: g.msgs) ++ [Msg.error] by simp]
              exact List.getLast?_concat _
            · rw [show ({ framesArrived { s with isProcessing := true, audioChunks := [] } fd
                    with isProcessing := false } : Conn).history =
                  (framesArrived { s with isProcessing := true, audioChunks := [] } fd).history
                from rfl, hh]

/-- C9 witness: the recognizer throws. -/
theorem upstream_failure_recovery_witness :
    (processAudio oFail sBig []).outcome = Outcome.failed ∧
    (countError (processAudio oFail sBig []).msgs = 1 ∧
     (processAudio oFail sBig []).msgs.getLast? = some Msg.error ∧
     (processAudio oFail sBig []).state.isProcessing = false ∧
     (processAudio oFail sBig []).state.history = sBig.history) := by
  have hf : (processAudio oFail sBig []).outcome = Outcome.failed := by
    rw [processAudio_run_eq oFail sBig [] sBig_guard sBig_len]
    decide
  exact ⟨hf, upstream_failure_recovery oFail sBig [] hf⟩

/-- C10: exactly one `audio_done` message is sent iff the cycle
completes successfully with a non-empty transcript (including the
empty-stream fallback case); no `audio_done` is sent on the guard,
noise-floor, empty-transcript, or error paths. -/
theorem audio_done_exactness (o : Oracle) (s : Conn) (fd : List Chunk) :
    countDone (processAudio o s fd).msgs =
      if (processAudio o s fd).outcome = Outcome.success then 1 else 0 := by
  by_cases h1 : s.audioChunks.length = 0 ∨ s.isProcessing = true
  · rw [processAudio_guard o s fd h1]
    simp [countDone]
  · by_cases h2 : s.audioChunks.flatten.length < 16000
    · rw [processAudio_tooShort o s fd h1 h2]
      simp [countDone]
    · rw [processAudio_run_eq o s fd h1 h2]
      cases hstt : o.stt with
      | error e =>
        rw [cycleAsync_stt_error o _ fd e hstt]
        simp [countDone]
      | ok raw =>
        by_cases h3 : trimStr raw = []
        · rw [cycleAsync_silent o _ fd raw hstt h3]
          simp [countDone]
        · cases hg : runGenAll o with
          | error g =>
            rw [cycleAsync_gen_error o _ fd raw g hstt h3 hg]
            have hcd : countDone g.msgs = 0 :=
              countDone_of_sentence (runGenAll_msgs o g (Or.inr hg))
            unfold countDone at hcd ⊢
            simp [List.countP_cons, List.countP_append, hcd]
          | ok g =>
            rw [cycleAsync_success o _ fd raw g hstt h3 hg]
            have hcd : countDone g.msgs = 0 :=
              countDone_of_sentence (runGenAll_msgs o g (Or.inl hg))
            unfold countDone at hcd ⊢
            simp [List.countP_cons, List.countP_append, hcd]
